import Mathlib

/-!
Verification of the global-food-news dashboard (`src/app.py`).

The file embeds the data-acquisition and normalisation core of the
application — `remove_html_tags`, `COUNTRY_MAPPING`, the paginated
`fetch_food_data` loop with its try/except boundary, the list-view
membership filter and the per-country drill-down — as executable Lean
definitions, and proves the specification's testable properties about
them.

Strings from the Python side are modelled as `String` (for opaque field
values that are only compared) or `List Char` (for the free-text
`CONTENT` field, whose characters are rewritten).  Python string
comparison is code-point lexicographic, modelled by `strLeB` below.
-/

/-! ### Code-point lexicographic string comparison (Python `<=` on `str`) -/

/-- Lexicographic comparison of character lists by code point, the order
Python uses to compare strings (and hence the order
`df.sort_values(by='등록일')` sorts by). -/
def listLeB : List Char → List Char → Bool
  | [], _ => true
  | _ :: _, [] => false
  | a :: as, b :: bs =>
    if a.toNat < b.toNat then true
    else if b.toNat < a.toNat then false
    else listLeB as bs

/-- `strLeB a b` is Python's `a <= b` on strings. -/
def strLeB (a b : String) : Bool := listLeB a.data b.data

/-! ### `remove_html_tags` (app.py lines 35-41)

```python

def remove_html_tags(text):
    if pd.isna(text):
        return ""
    clean = re.compile('<.*?>')
    text = re.sub(clean, '', str(text))
    return text.replace('&nbsp;', ' ').replace('&lt;', '<').replace('&gt;', '>').strip()
```

`re.sub('<.*?>', '', s)` removes, scanning left to right, every span that
starts at a `'<'` and ends at the first `'>'` after it, provided no
newline lies between (`.` does not match `'\n'`).  `stripTags` performs
this in one pass: on a `'<'` it starts buffering; a `'>'` discards the
buffer (a tag was matched); a `'\n'` flushes the buffer (the match
attempt at that `'<'` — and at every later `'<'` in the buffer — fails
because no `'>'` occurs before the newline); end of input also flushes.
-/

/-- One scanning pass of `re.sub('<.*?>', '', ·)`.  `pending = some buf`
means the scanner is inside a potential tag whose characters so far
(reversed, starting with `'<'`) are `buf`. -/
def stripAux (pending : Option (List Char)) : List Char → List Char
  | [] =>
    match pending with
    | none => []
    | some buf => buf.reverse
  | c :: cs =>
    match pending with
    | none =>
      if c = '<' then stripAux (some [c]) cs
      else c :: stripAux none cs
    | some buf =>
      if c = '>' then stripAux none cs
      else if c = '\n' then buf.reverse ++ c :: stripAux none cs
      else stripAux (some (c :: buf)) cs

/-- `re.sub('<.*?>', '', s)` — non-greedy tag removal, `.` excluding newlines. -/
def stripTags (s : List Char) : List Char := stripAux none s

/-- `dropTag cs = some rest` iff a `'>'` occurs in `cs` before any `'\n'`;
`rest` is what follows that first `'>'`.  This is exactly the condition
under which the non-greedy pattern `<.*?>` matches at a `'<'` whose tail
is `cs`. -/
def dropTag : List Char → Option (List Char)
  | [] => none
  | c :: cs => if c = '>' then some cs else if c = '\n' then none else dropTag cs

/-- Whether a string still contains a match of the HTML tag pattern
`<.*?>`: a `'<'` followed by a `'>'` with no newline in between. -/
def hasTag : List Char → Bool
  | [] => false
  | c :: cs => if c = '<' ∧ (dropTag cs).isSome then true else hasTag cs

/-- `leadsWith pat s` iff `pat` is a prefix of `s` (Python `s.startswith(pat)`). -/
def leadsWith : List Char → List Char → Bool
  | [], _ => true
  | _ :: _, [] => false
  | p :: ps, c :: cs => if p = c then leadsWith ps cs else false

/-- `hasSub pat s` iff `pat` occurs as a contiguous substring of `s`
(Python `pat in s`). -/
def hasSub (pat : List Char) : List Char → Bool
  | [] => leadsWith pat []
  | c :: cs => if leadsWith pat (c :: cs) then true else hasSub pat cs

/-- Python `s.replace(old, new)`: scan left to right; at a position where
`old` is a prefix, emit `new` and resume after the matched occurrence.
`skip` counts matched characters still to be consumed.  (`old` is always
one of the three non-empty entity strings below.) -/
def repAux (old new : List Char) : Nat → List Char → List Char
  | _, [] => []
  | k + 1, _ :: cs => repAux old new k cs
  | 0, c :: cs =>
    if leadsWith old (c :: cs) then new ++ repAux old new (old.length - 1) cs
    else c :: repAux old new 0 cs

/-- Python `s.replace(old, new)` for non-empty `old`. -/
def replaceAll (old new s : List Char) : List Char := repAux old new 0 s

/-- The whitespace characters removed by Python's `str.strip()` (ASCII part). -/
def isPySpace (c : Char) : Bool :=
  c = ' ' || c = '\t' || c = '\n' || c = '\r' || c = '\x0b' || c = '\x0c'

/-- Python `s.strip()`: remove leading and trailing whitespace. -/
def pyStrip (l : List Char) : List Char :=
  (((l.dropWhile isPySpace).reverse.dropWhile isPySpace)).reverse

def entNbsp : List Char := ['&', 'n', 'b', 's', 'p', ';']

def entLt : List Char := ['&', 'l', 't', ';']

def entGt : List Char := ['&', 'g', 't', ';']

/-- `remove_html_tags` (app.py 35-41).  A missing (`NaN`) value is
modelled as `none` and yields the empty string; otherwise tags are
removed, the three entities are unescaped (in the source's order), and
the result is stripped of surrounding whitespace. -/
def remove_html_tags (text : Option (List Char)) : List Char :=
  match text with
  | none => []
  | some s =>
    pyStrip (replaceAll entGt ['>']
      (replaceAll entLt ['<']
        (replaceAll entNbsp [' ']
          (stripTags s))))

/-! ### Country mapping (app.py lines 24-33 and 106)

`df['Country_EN'] = df['국가'].map(COUNTRY_MAPPING).fillna(df['국가'])`
-/

/-- The fixed Korean → English country lookup table, entry for entry. -/
def COUNTRY_MAPPING : List (String × String) :=
  [("중국", "China"), ("일본", "Japan"), ("미국", "United States"),
   ("프랑스", "France"), ("베트남", "Vietnam"), ("독일", "Germany"),
   ("이탈리아", "Italy"), ("영국", "United Kingdom"), ("캐나다", "Canada"),
   ("호주", "Australia"), ("태국", "Thailand"), ("인도", "India"),
   ("대한민국", "South Korea"), ("한국", "South Korea"), ("대만", "Taiwan"),
   ("스페인", "Spain"), ("러시아", "Russia"), ("브라질", "Brazil"),
   ("인도네시아", "Indonesia"), ("필리핀", "Philippines"), ("네덜란드", "Netherlands"),
   ("벨기에", "Belgium"), ("튀르키예", "Turkey"), ("터키", "Turkey")]

/-- `COUNTRY_MAPPING.get(c, c)`: the mapped English name, falling back to
the original value when the key is absent (`.map(...).fillna(original)`). -/
def countryEn (c : String) : String := (COUNTRY_MAPPING.lookup c).getD c

/-! ### The data model: raw API items and normalised records

A raw page item carries the upstream field names (app.py lines 92-99
rename them); a `Record` is a fully normalised row of the final frame.
-/

/-- One element of a page's `ITEMS` array, with the raw API field names.
`CONTENT` is optional: the API may omit it (pandas `NaN`). -/
structure Item where
  TITLE : String
  COUNTRY : String
  INFO_TYPE : String
  CONTENT : Option (List Char)
  REGISTRATION_DATE : String
  ORIGINAL_URL : String
deriving DecidableEq

/-- One fully normalised row: renamed columns, HTML-stripped content,
derived English country name. -/
structure Record where
  title : String
  country_local : String
  info_type : String
  content : List Char
  registered_at : String
  source_url : String
  country_en : String
deriving DecidableEq

/-- Column renaming (lines 92-99) plus the per-row normalisation steps:
HTML stripping of `상세내용` (line 104) and `Country_EN` derivation
(line 106).  Neither step touches `등록일`, so they commute with the sort
and are applied here record-wise. -/
def normalizeItem (it : Item) : Record :=
  { title := it.TITLE
    country_local := it.COUNTRY
    info_type := it.INFO_TYPE
    content := remove_html_tags it.CONTENT
    registered_at := it.REGISTRATION_DATE
    source_url := it.ORIGINAL_URL
    country_en := countryEn it.COUNTRY }

/-- Insertion step of sorting by `등록일` descending (line 101). -/
def insertItemDesc (x : Item) : List Item → List Item
  | [] => [x]
  | y :: ys =>
    if strLeB y.REGISTRATION_DATE x.REGISTRATION_DATE then x :: y :: ys
    else y :: insertItemDesc x ys

/-- `df.sort_values(by='등록일', ascending=False)` (line 101), modelled
as an insertion sort on the registration-date key. -/
def sortItemsDesc : List Item → List Item
  | [] => []
  | x :: xs => insertItemDesc x (sortItemsDesc xs)

/-- The whole normalisation block (lines 90-107): sort the collected
items by `등록일` descending, then rename/strip/derive per row. -/
def normalizeTable (items : List Item) : List Record :=
  (sortItemsDesc items).map normalizeItem

/-- Descending order on raw items by `REGISTRATION_DATE`. -/
def itemsSortedDesc (l : List Item) : Prop :=
  l.Pairwise (fun a b => strLeB b.REGISTRATION_DATE a.REGISTRATION_DATE = true)

/-- Descending order on normalised records by `등록일`. -/
def recsSortedDesc (l : List Record) : Prop :=
  l.Pairwise (fun a b => strLeB b.registered_at a.registered_at = true)

instance : DecidablePred itemsSortedDesc := fun l =>
  List.instDecidablePairwise l

instance : DecidablePred recsSortedDesc := fun l =>
  List.instDecidablePairwise l

/-! ### Paginated acquisition (app.py lines 43-112)

The loop issues up to 5 calls.  Call `i` (0-indexed) requests the 1-based
inclusive window `[100*i+1, 100*(i+1)]` (lines 60-61, `batch_size=100`).
A response is modelled by `ApiResult`:
  * `err e` — `requests.get`/`raise_for_status`/`.json()` raised, message `e`;
  * `noItems` — response not a dict or without an `ITEMS` key (line 77);
  * `items l` — an `ITEMS` list (an empty list also stops the loop,
    `not data['ITEMS']`).
`fetch_food_data` returns the normalised table on success and, from the
`except` branch (lines 110-112), the *raw* collected items together with
the surfaced error message.
-/

def start_index (i : Nat) : Nat := i * 100 + 1

def end_index (i : Nat) : Nat := (i + 1) * 100

/-- One remote response, keyed by the requested window. -/
inductive ApiResult where
  | err : String → ApiResult
  | noItems : ApiResult
  | items : List Item → ApiResult
deriving DecidableEq

/-- Outcome of the `for i in range(5)` loop: how many calls were issued,
and either the collected items (loop ended normally or via `break`) or
the pending exception's message plus the items collected before it. -/
inductive LoopResult where
  | done : Nat → List Item → LoopResult
  | failed : Nat → String → List Item → LoopResult
deriving DecidableEq

/-- The pagination loop (lines 59-82).  `fuel` is the number of remaining
iterations (initially 5), `i` the current page index, `acc` the
`all_data` accumulator. -/
def fetchLoop (api : Nat → Nat → ApiResult) : Nat → Nat → List Item → LoopResult
  | 0, i, acc => .done i acc
  | fuel + 1, i, acc =>
    match api (start_index i) (end_index i) with
    | .err e => .failed (i + 1) e acc
    | .noItems => .done (i + 1) acc
    | .items [] => .done (i + 1) acc
    | .items (x :: xs) => fetchLoop api fuel (i + 1) (acc ++ x :: xs)

/-- Number of API calls issued. -/
def callsOf : LoopResult → Nat
  | .done n _ => n
  | .failed n _ _ => n

/-- Result of `fetch_food_data`: `ok` is the normalised table returned at
line 108 (or the empty frame of line 88); `rawOnError` is the value of
line 112 — the raw, un-normalised `all_data` plus the `st.error` message. -/
inductive FetchResult where
  | ok : List Record → FetchResult
  | rawOnError : String → List Item → FetchResult
deriving DecidableEq

/-- `fetch_food_data(start_date, end_date)` (lines 43-112), abstracted
over the remote endpoint `api` (the date range only parameterises the
query string, so it is folded into `api`). -/
def fetch_food_data (api : Nat → Nat → ApiResult) : FetchResult :=
  match fetchLoop api 5 0 [] with
  | .done _ acc => if acc = [] then .ok [] else .ok (normalizeTable acc)
  | .failed _ e acc => .rawOnError e acc

/-! ### Presentation layer (app.py lines 160-163 and 209-217) -/

/-- The tab-1 membership filter (lines 160-163):
`df[(df['구분'].isin(filter_type)) & (df['국가'].isin(filter_country))]`. -/
def filterTable (filter_type filter_country : List String)
    (t : List Record) : List Record :=
  t.filter (fun r => filter_type.contains r.info_type &&
    filter_country.contains r.country_local)

/-- The drill-down (lines 209, 217): restrict the (already filtered)
table to one country, then `head(5)`. -/
def drillDown (t : List Record) (c : String) : List Record :=
  (t.filter (fun r => r.country_local == c)).take 5

/-- Items of pages `i, i+1, ..., i+n-1`, concatenated in arrival order. -/
def concatPages (L : Nat → List Item) : Nat → Nat → List Item
  | _, 0 => []
  | i, n + 1 => L i ++ concatPages L (i + 1) n

/-! ### Concrete fixtures for scenario runs -/

def itemOld : Item :=
  { TITLE := "제품A", COUNTRY := "중국", INFO_TYPE := "회수"
    CONTENT := some "수은 검출".data, REGISTRATION_DATE := "20240105"
    ORIGINAL_URL := "http://example.com/1" }

def itemNew : Item :=
  { TITLE := "제품B", COUNTRY := "일본", INFO_TYPE := "판매중지"
    CONTENT := some "<b>세균</b> 검출".data, REGISTRATION_DATE := "20240210"
    ORIGINAL_URL := "" }

/-- Endpoint stub: page 0 returns two items in ascending date order, the
second call raises. -/
def apiC1 : Nat → Nat → ApiResult := fun s _ =>
  if s = 1 then .items [itemOld, itemNew] else .err "ConnectionError"

/-- Endpoint stub: page 0 returns two items, page 1 is empty (success). -/
def apiC1ok : Nat → Nat → ApiResult := fun s _ =>
  if s = 1 then .items [itemOld, itemNew] else .items []

def itemEsc : Item :=
  { TITLE := "제품C", COUNTRY := "미국", INFO_TYPE := "회수"
    CONTENT := some "&lt;b&gt;".data, REGISTRATION_DATE := "20240301"
    ORIGINAL_URL := "" }

/-- Endpoint stub: one item whose raw CONTENT is escaped markup. -/
def apiEsc : Nat → Nat → ApiResult := fun s _ =>
  if s = 1 then .items [itemEsc] else .items []

/-- Endpoint stub: page 0 succeeds with one item, page 1 raises. -/
def apiC3e : Nat → Nat → ApiResult := fun s _ =>
  if s = 1 then .items [itemOld] else .err "HTTPError 500"

def itemRep : Item :=
  { TITLE := "제품R", COUNTRY := "베트남", INFO_TYPE := "회수"
    CONTENT := none, REGISTRATION_DATE := "20240401"
    ORIGINAL_URL := "" }

/-- Endpoint stub: three full pages of 100 items, then an empty page. -/
def apiFull3 : Nat → Nat → ApiResult := fun s _ =>
  if s = 1 ∨ s = 101 ∨ s = 201 then .items (List.replicate 100 itemRep)
  else .items []

/-- Endpoint stub: page 0 returns raw items (one with literal markup in
CONTENT), page 1 times out. -/
def apiC9e : Nat → Nat → ApiResult := fun s _ =>
  if s = 1 then .items [itemNew, itemOld] else .err "Timeout"

def itemC8 : Item :=
  { TITLE := "제품D", COUNTRY := "태국", INFO_TYPE := "회수"
    CONTENT := none, REGISTRATION_DATE := "20240501"
    ORIGINAL_URL := "" }

def recJp (i : Nat) (d : String) : Record :=
  { title := "상품", country_local := "일본", info_type := "회수"
    content := ("내용" ++ toString i).data, registered_at := d
    source_url := "", country_en := "Japan" }

/-- A seven-row single-country table, already sorted descending. -/
def tC6 : List Record :=
  [recJp 1 "20241207", recJp 2 "20241206", recJp 3 "20241205",
   recJp 4 "20241204", recJp 5 "20241203", recJp 6 "20241202",
   recJp 7 "20241201"]

/-! ## Lemmas and claim theorems -/

theorem listLeB_total (a b : List Char) : listLeB a b = true ∨ listLeB b a = true := by
  induction a generalizing b with
  | nil => left; rfl
  | cons x xs ih =>
    cases b with
    | nil => right; rfl
    | cons y ys =>
      by_cases h1 : x.toNat < y.toNat
      · left; simp [listLeB, h1]
      · by_cases h2 : y.toNat < x.toNat
        · right; simp [listLeB, h2]
        · rcases ih ys with h | h
          · left; simp [listLeB, h1, h2, h]
          · right; simp [listLeB, h1, h2, h]

theorem listLeB_trans {a b c : List Char} (hab : listLeB a b = true)
    (hbc : listLeB b c = true) : listLeB a c = true := by
  induction a generalizing b c with
  | nil => rfl
  | cons x xs ih =>
    cases b with
    | nil => simp [listLeB] at hab
    | cons y ys =>
      cases c with
      | nil => simp [listLeB] at hbc
      | cons z zs =>
        simp only [listLeB] at hab hbc ⊢
        split at hab
        · rename_i h1
          split at hbc
          · rename_i h2
            simp [show x.toNat < z.toNat by omega]
          · split at hbc
            · exact absurd hbc (by simp)
            · rename_i h2 h3
              simp [show x.toNat < z.toNat by omega]
        · split at hab
          · exact absurd hab (by simp)
          · rename_i h1 h2
            split at hbc
            · rename_i h3
              simp [show x.toNat < z.toNat by omega]
            · split at hbc
              · exact absurd hbc (by simp)
              · rename_i h3 h4
                have hxz : ¬ x.toNat < z.toNat := by omega
                have hzx : ¬ z.toNat < x.toNat := by omega
                simp only [hxz, hzx, if_false]
                exact ih hab hbc

theorem strLeB_total (a b : String) : strLeB a b = true ∨ strLeB b a = true :=
  listLeB_total a.data b.data

theorem strLeB_trans {a b c : String} (h : strLeB a b = true) (h' : strLeB b c = true) :
    strLeB a c = true := listLeB_trans h h'

/-! ### Substring bookkeeping lemmas -/

theorem hasSub_cons_false {pat : List Char} {c : Char} {cs : List Char}
    (h : hasSub pat (c :: cs) = false) :
    leadsWith pat (c :: cs) = false ∧ hasSub pat cs = false := by
  by_cases hl : leadsWith pat (c :: cs) = true
  · simp [hasSub, hl] at h
  · exact ⟨Bool.eq_false_iff.mpr hl, by simpa [hasSub, Bool.eq_false_iff.mpr hl] using h⟩

theorem leadsWith_append {pat a : List Char} (b : List Char)
    (h : leadsWith pat a = true) : leadsWith pat (a ++ b) = true := by
  induction pat generalizing a with
  | nil => rfl
  | cons p ps ih =>
    cases a with
    | nil => simp [leadsWith] at h
    | cons x xs =>
      simp only [leadsWith, List.cons_append] at h ⊢
      split at h
      · rename_i hp
        simp only [hp, if_pos rfl]
        exact ih h
      · exact absurd h (by simp)

theorem hasSub_append_left {pat a : List Char} (b : List Char)
    (h : hasSub pat a = true) : hasSub pat (a ++ b) = true := by
  induction a with
  | nil =>
    cases pat with
    | nil => cases b <;> simp [hasSub, leadsWith]
    | cons p ps => simp [hasSub, leadsWith] at h
  | cons x xs ih =>
    rw [List.cons_append]
    simp only [hasSub] at h ⊢
    split at h
    · rename_i hl
      have hl' := leadsWith_append b hl
      rw [List.cons_append] at hl'
      rw [if_pos hl']
    · split
      · rfl
      · exact ih h

theorem hasSub_append_right {pat : List Char} (a : List Char) {b : List Char}
    (h : hasSub pat b = true) : hasSub pat (a ++ b) = true := by
  induction a with
  | nil => simpa using h
  | cons x xs ih =>
    simp only [List.cons_append, hasSub]
    split
    · rfl
    · exact ih

theorem leadsWith_eq_append {pat s : List Char} (h : leadsWith pat s = true) :
    s = pat ++ s.drop pat.length := by
  induction pat generalizing s with
  | nil => simp
  | cons p ps ih =>
    cases s with
    | nil => simp [leadsWith] at h
    | cons x xs =>
      simp only [leadsWith] at h
      split at h
      · rename_i hp
        subst hp
        simpa using ih h
      · exact absurd h (by simp)

theorem hasSub_drop {pat s : List Char} (k : Nat)
    (h : hasSub pat (s.drop k) = true) : hasSub pat s = true := by
  induction k generalizing s with
  | zero => simpa using h
  | succ k ih =>
    cases s with
    | nil => simpa using h
    | cons x xs =>
      rw [List.drop_succ_cons] at h
      have := ih h
      simp only [hasSub]
      split
      · rfl
      · exact this

/-- An occurrence of `pat` cannot start inside a block `a` none of whose
characters belongs to `pat`. -/
theorem hasSub_append_blocked {pat a b : List Char} (hp : pat ≠ [])
    (ha : ∀ c ∈ a, c ∉ pat) (hb : hasSub pat b = false) :
    hasSub pat (a ++ b) = false := by
  induction a with
  | nil => simpa using hb
  | cons x xs ih =>
    rw [List.cons_append]
    simp only [hasSub]
    have hx : leadsWith pat (x :: (xs ++ b)) = false := by
      cases pat with
      | nil => exact absurd rfl hp
      | cons q qs =>
        simp only [leadsWith]
        split
        · rename_i hq
          exact absurd (by simp [hq]) (ha x (by simp))
        · rfl
    rw [hx]
    simp only [Bool.false_eq_true, if_false]
    exact ih (fun c hc => ha c (by simp [hc]))

/-- If `pat` is a prefix of `repAux old new k s` and no character of the
(non-empty) replacement `new` occurs in `pat`, then `pat` was already a
prefix of the unconsumed input `s.drop k`. -/
theorem leadsWith_repAux {old new : List Char} (hn : new ≠ []) :
    ∀ (s : List Char) (pat' : List Char) (k : Nat), (∀ c ∈ new, c ∉ pat') →
      leadsWith pat' (repAux old new k s) = true → leadsWith pat' (s.drop k) = true := by
  intro s
  induction s with
  | nil =>
    intro pat' k hnew' h
    cases pat' with
    | nil => rfl
    | cons q qs => simp [repAux, leadsWith] at h
  | cons c cs ih =>
    intro pat' k hnew' h
    cases k with
    | succ k =>
      rw [List.drop_succ_cons]
      exact ih pat' k hnew' (by simpa [repAux] using h)
    | zero =>
      simp only [repAux] at h
      rw [List.drop_zero]
      split at h
      · rename_i hmatch
        cases pat' with
        | nil => rfl
        | cons q qs =>
          cases new with
          | nil => exact absurd rfl hn
          | cons n ns =>
            simp only [List.cons_append, leadsWith] at h
            split at h
            · rename_i hq
              exact absurd (List.mem_cons_self n ns) (by simpa [hq] using hnew' n)
            · exact absurd h (by simp)
      · rename_i hmatch
        cases pat' with
        | nil => rfl
        | cons q qs =>
          simp only [leadsWith] at h ⊢
          split at h
          · rename_i hq
            rw [if_pos hq]
            have := ih qs 0 (fun c hc hq' => hnew' c hc (by simp [hq'])) (by simpa using h)
            simpa using this
          · exact absurd h (by simp)

/-- `s.replace(old, new)` leaves no occurrence of `old` behind, provided
no character of the (non-empty) replacement text occurs in `old`. -/
theorem hasSub_repAux_self {old new : List Char} (ho : old ≠ []) (hn : new ≠ [])
    (hnew : ∀ c ∈ new, c ∉ old) :
    ∀ (s : List Char) (k : Nat), hasSub old (repAux old new k s) = false := by
  intro s
  induction s with
  | nil =>
    intro k
    cases old with
    | nil => exact absurd rfl ho
    | cons q qs => cases k <;> simp [repAux, hasSub, leadsWith]
  | cons c cs ih =>
    intro k
    cases k with
    | succ k => simpa [repAux] using ih k
    | zero =>
      simp only [repAux]
      split
      · rename_i hmatch
        exact hasSub_append_blocked ho hnew (ih (old.length - 1))
      · rename_i hmatch
        simp only [hasSub]
        have hlw : leadsWith old (c :: repAux old new 0 cs) = false := by
          cases old with
          | nil => exact absurd rfl ho
          | cons q qs =>
            simp only [leadsWith]
            split
            · rename_i hq
              by_cases hqs : leadsWith qs (repAux (q :: qs) new 0 cs) = true
              · have hlead := leadsWith_repAux hn cs qs 0
                  (fun x hx hmem => hnew x hx (by simp [hmem])) hqs
                rw [List.drop_zero] at hlead
                have hcontra : leadsWith (q :: qs) (c :: cs) = true := by
                  simp [leadsWith, hq, hlead]
                exact absurd hcontra hmatch
              · exact Bool.eq_false_iff.mpr hqs
            · rfl
        rw [hlw]
        simp only [Bool.false_eq_true, if_false]
        exact ih 0

/-- `s.replace(old, new)` creates no occurrence of another pattern `pat`
that was not already present, provided no character of the (non-empty)
replacement text occurs in `pat`. -/
theorem hasSub_repAux_preserve {old new pat : List Char} (hp : pat ≠ []) (hn : new ≠ [])
    (hnew : ∀ c ∈ new, c ∉ pat) :
    ∀ (s : List Char) (k : Nat), hasSub pat s = false →
      hasSub pat (repAux old new k s) = false := by
  intro s
  induction s with
  | nil =>
    intro k _
    cases pat with
    | nil => exact absurd rfl hp
    | cons q qs => cases k <;> simp [repAux, hasSub, leadsWith]
  | cons c cs ih =>
    intro k hs
    obtain ⟨hlw0, htail⟩ := hasSub_cons_false hs
    cases k with
    | succ k => simpa [repAux] using ih k htail
    | zero =>
      simp only [repAux]
      split
      · rename_i hmatch
        exact hasSub_append_blocked hp hnew (ih (old.length - 1) htail)
      · rename_i hmatch
        simp only [hasSub]
        have hlw : leadsWith pat (c :: repAux old new 0 cs) = false := by
          cases pat with
          | nil => exact absurd rfl hp
          | cons q qs =>
            simp only [leadsWith]
            split
            · rename_i hq
              by_cases hqs : leadsWith qs (repAux old new 0 cs) = true
              · have hlead := leadsWith_repAux hn cs qs 0
                  (fun x hx hmem => hnew x hx (by simp [hmem])) hqs
                rw [List.drop_zero] at hlead
                have hcontra : leadsWith (q :: qs) (c :: cs) = true := by
                  simp [leadsWith, hq, hlead]
                simp [hcontra] at hlw0
              · exact Bool.eq_false_iff.mpr hqs
            · rfl
        rw [hlw]
        simp only [Bool.false_eq_true, if_false]
        exact ih 0 htail

/-- `s.replace(old, new)` is the identity when `old` does not occur in `s`. -/
theorem repAux_id {old new : List Char} :
    ∀ s : List Char, hasSub old s = false → repAux old new 0 s = s := by
  intro s
  induction s with
  | nil => intro _; rfl
  | cons c cs ih =>
    intro hs
    obtain ⟨hlw, htail⟩ := hasSub_cons_false hs
    simp only [repAux, hlw]
    simp only [Bool.false_eq_true, if_false]
    rw [ih htail]

/-! ### Tag-pattern lemmas -/

theorem dropTag_none_of_no_gt {l : List Char} (h : ∀ c ∈ l, c ≠ '>') :
    dropTag l = none := by
  induction l with
  | nil => rfl
  | cons c cs ih =>
    simp only [dropTag]
    rw [if_neg (h c (by simp))]
    split
    · rfl
    · exact ih (fun x hx => h x (by simp [hx]))

theorem hasTag_false_of_no_gt {l : List Char} (h : ∀ c ∈ l, c ≠ '>') :
    hasTag l = false := by
  induction l with
  | nil => rfl
  | cons c cs ih =>
    simp only [hasTag]
    rw [dropTag_none_of_no_gt (fun x hx => h x (by simp [hx]))]
    simp only [Option.isSome_none, Bool.false_eq_true, and_false, if_false]
    exact ih (fun x hx => h x (by simp [hx]))

theorem dropTag_append_nl {a : List Char} (b : List Char)
    (h : ∀ c ∈ a, c ≠ '>' ∧ c ≠ '\n') : dropTag (a ++ '\n' :: b) = none := by
  induction a with
  | nil => rfl
  | cons x xs ih =>
    rw [List.cons_append]
    simp only [dropTag]
    rw [if_neg (h x (by simp)).1]
    split
    · rename_i hnl
      exact absurd hnl (h x (by simp)).2
    · exact ih (fun c hc => h c (by simp [hc]))

theorem hasTag_append_nl {a b : List Char} (h : ∀ c ∈ a, c ≠ '>' ∧ c ≠ '\n')
    (hb : hasTag b = false) : hasTag (a ++ '\n' :: b) = false := by
  induction a with
  | nil => simpa [hasTag, dropTag] using hb
  | cons x xs ih =>
    rw [List.cons_append]
    simp only [hasTag]
    rw [dropTag_append_nl b (fun c hc => h c (by simp [hc]))]
    simp only [Option.isSome_none, Bool.false_eq_true, and_false, if_false]
    exact ih (fun c hc => h c (by simp [hc]))

/-- The scanner invariant: characters buffered inside a potential tag are
never `'>'` (that would have closed the tag) nor `'\n'` (that would have
flushed the buffer).  Under this invariant no output of `stripAux`
contains a match of `<.*?>`. -/
theorem hasTag_stripAux : ∀ (l : List Char) (pending : Option (List Char)),
    (∀ buf, pending = some buf → ∀ c ∈ buf, c ≠ '>' ∧ c ≠ '\n') →
    hasTag (stripAux pending l) = false := by
  intro l
  induction l with
  | nil =>
    intro pending hinv
    cases pending with
    | none => rfl
    | some buf =>
      simp only [stripAux]
      exact hasTag_false_of_no_gt
        (fun c hc => (hinv buf rfl c (List.mem_reverse.mp hc)).1)
  | cons c cs ih =>
    intro pending hinv
    cases pending with
    | none =>
      simp only [stripAux]
      split
      · rename_i hc
        subst hc
        refine ih (some ['<']) ?_
        intro buf hb x hx
        simp only [Option.some.injEq] at hb
        subst hb
        simp only [List.mem_singleton] at hx
        subst hx
        exact ⟨by decide, by decide⟩
      · rename_i hc
        simp only [hasTag]
        split
        · rename_i hcond
          exact absurd hcond.1 hc
        · exact ih none (by intro buf hb; cases hb)
    | some buf =>
      simp only [stripAux]
      split
      · exact ih none (by intro b hb; cases hb)
      · split
        · rename_i hgt hnl
          subst hnl
          exact hasTag_append_nl
            (fun x hx => hinv buf rfl x (List.mem_reverse.mp hx))
            (ih none (by intro b hb; cases hb))
        · rename_i hgt hnl
          exact ih (some (c :: buf)) (by
            intro b hb x hx
            simp only [Option.some.injEq] at hb
            subst hb
            rcases List.mem_cons.mp hx with hx | hx
            · subst hx; exact ⟨hgt, hnl⟩
            · exact hinv buf rfl x hx)

/-- After `re.sub('<.*?>', '', s)` no match of the tag pattern remains. -/
theorem hasTag_stripTags (s : List Char) : hasTag (stripTags s) = false :=
  hasTag_stripAux s none (by intro b hb; cases hb)

theorem dropTag_append_skip {a : List Char} (b : List Char)
    (h : ∀ c ∈ a, c ≠ '>' ∧ c ≠ '\n') : dropTag (a ++ b) = dropTag b := by
  induction a with
  | nil => rfl
  | cons x xs ih =>
    rw [List.cons_append]
    simp only [dropTag]
    rw [if_neg (h x (by simp)).1, if_neg (h x (by simp)).2]
    exact ih (fun c hc => h c (by simp [hc]))

theorem hasTag_append_no_lt {a : List Char} (b : List Char)
    (h : ∀ c ∈ a, c ≠ '<') : hasTag (a ++ b) = hasTag b := by
  induction a with
  | nil => rfl
  | cons x xs ih =>
    rw [List.cons_append]
    simp only [hasTag]
    split
    · rename_i hcond
      exact absurd hcond.1 (h x (by simp))
    · exact ih (fun c hc => h c (by simp [hc]))

theorem dropTag_isSome_append {a : List Char} (b : List Char)
    (h : (dropTag a).isSome = true) : (dropTag (a ++ b)).isSome = true := by
  induction a with
  | nil => simp [dropTag] at h
  | cons x xs ih =>
    rw [List.cons_append]
    simp only [dropTag] at h ⊢
    split at h
    · rename_i hx
      rw [if_pos hx]
      rfl
    · rename_i hx
      rw [if_neg hx]
      split at h
      · simp at h
      · rename_i hnl
        rw [if_neg hnl]
        exact ih h

theorem hasTag_append_left {a : List Char} (b : List Char)
    (h : hasTag a = true) : hasTag (a ++ b) = true := by
  induction a with
  | nil => simp [hasTag] at h
  | cons x xs ih =>
    rw [List.cons_append]
    simp only [hasTag] at h ⊢
    split at h
    · rename_i hcond
      rw [if_pos ⟨hcond.1, dropTag_isSome_append b hcond.2⟩]
    · split
      · rfl
      · exact ih h

theorem hasTag_append_right (a : List Char) {b : List Char}
    (h : hasTag b = true) : hasTag (a ++ b) = true := by
  induction a with
  | nil => simpa using h
  | cons x xs ih =>
    rw [List.cons_append]
    simp only [hasTag]
    split
    · rfl
    · exact ih

/-- Replacing `old` by `new` neither creates nor destroys a tag-pattern
match when neither string mentions `'<'`, `'>'` or `'\n'` — the
subsequence of those three characters, which alone decides `hasTag`, is
untouched.  First, the `'>'`-before-`'\n'` lookahead is preserved. -/
theorem dropTag_isSome_repAux {old new : List Char} (ho : old ≠ [])
    (hold : ∀ c ∈ old, c ≠ '>' ∧ c ≠ '\n') (hnew : ∀ c ∈ new, c ≠ '>' ∧ c ≠ '\n') :
    ∀ (s : List Char) (k : Nat),
      (dropTag (repAux old new k s)).isSome = (dropTag (List.drop k s)).isSome := by
  intro s
  induction s with
  | nil => intro k; cases k <;> rfl
  | cons c cs ih =>
    intro k
    cases k with
    | succ k =>
      rw [List.drop_succ_cons]
      simpa [repAux] using ih k
    | zero =>
      rw [List.drop_zero]
      simp only [repAux]
      split
      · rename_i hmatch
        cases old with
        | nil => exact absurd rfl ho
        | cons o os =>
          rw [dropTag_append_skip _ hnew]
          have heq := leadsWith_eq_append hmatch
          simp only [List.length_cons, Nat.add_sub_cancel]
          rw [ih (os.length)]
          conv_rhs => rw [heq]
          rw [dropTag_append_skip _ hold]
          simp
      · rename_i hmatch
        simp only [dropTag]
        split
        · rfl
        · split
          · rfl
          · simpa using ih 0

theorem hasTag_repAux {old new : List Char} (ho : old ≠ [])
    (hold : ∀ c ∈ old, c ≠ '>' ∧ c ≠ '\n' ∧ c ≠ '<')
    (hnew : ∀ c ∈ new, c ≠ '>' ∧ c ≠ '\n' ∧ c ≠ '<') :
    ∀ (s : List Char) (k : Nat),
      hasTag (repAux old new k s) = hasTag (List.drop k s) := by
  intro s
  induction s with
  | nil => intro k; cases k <;> rfl
  | cons c cs ih =>
    intro k
    cases k with
    | succ k =>
      rw [List.drop_succ_cons]
      simpa [repAux] using ih k
    | zero =>
      rw [List.drop_zero]
      simp only [repAux]
      split
      · rename_i hmatch
        cases old with
        | nil => exact absurd rfl ho
        | cons o os =>
          rw [hasTag_append_no_lt _ (fun x hx => (hnew x hx).2.2)]
          have heq := leadsWith_eq_append hmatch
          simp only [List.length_cons, Nat.add_sub_cancel]
          rw [ih (os.length)]
          conv_rhs => rw [heq]
          rw [hasTag_append_no_lt _ (fun x hx => (hold x hx).2.2)]
          simp
      · rename_i hmatch
        have ha := dropTag_isSome_repAux ho
          (fun x hx => ⟨(hold x hx).1, (hold x hx).2.1⟩)
          (fun x hx => ⟨(hnew x hx).1, (hnew x hx).2.1⟩) cs 0
        rw [List.drop_zero] at ha
        simp only [hasTag, ha]
        split
        · rfl
        · simpa using ih 0

/-! ### `str.strip()` only removes an outer layer, so cannot create
occurrences -/

/-- `l` is its stripped core surrounded by the removed whitespace layers. -/
theorem pyStrip_decomp (l : List Char) :
    l = l.takeWhile isPySpace ++
      (pyStrip l ++ ((l.dropWhile isPySpace).reverse.takeWhile isPySpace).reverse) := by
  have h2 := List.takeWhile_append_dropWhile isPySpace (l.dropWhile isPySpace).reverse
  have h3 : l.dropWhile isPySpace =
      pyStrip l ++ ((l.dropWhile isPySpace).reverse.takeWhile isPySpace).reverse := by
    conv_lhs => rw [← List.reverse_reverse (l.dropWhile isPySpace), ← h2]
    rw [List.reverse_append]
    rfl
  conv_lhs => rw [← List.takeWhile_append_dropWhile isPySpace l]
  conv_lhs => rw [h3]

theorem hasSub_pyStrip {pat l : List Char} (h : hasSub pat (pyStrip l) = true) :
    hasSub pat l = true := by
  have h2 : hasSub pat (l.takeWhile isPySpace ++
      (pyStrip l ++ ((l.dropWhile isPySpace).reverse.takeWhile isPySpace).reverse)) = true :=
    hasSub_append_right _ (hasSub_append_left _ h)
  rwa [← pyStrip_decomp l] at h2

theorem hasTag_pyStrip {l : List Char} (h : hasTag (pyStrip l) = true) :
    hasTag l = true := by
  have h2 : hasTag (l.takeWhile isPySpace ++
      (pyStrip l ++ ((l.dropWhile isPySpace).reverse.takeWhile isPySpace).reverse)) = true :=
    hasTag_append_right _ (hasTag_append_left _ h)
  rwa [← pyStrip_decomp l] at h2

theorem hasSub_pyStrip_false {pat l : List Char} (h : hasSub pat l = false) :
    hasSub pat (pyStrip l) = false := by
  cases hp : hasSub pat (pyStrip l) with
  | false => rfl
  | true => exact absurd (hasSub_pyStrip hp) (by simp [h])

theorem hasTag_pyStrip_false {l : List Char} (h : hasTag l = false) :
    hasTag (pyStrip l) = false := by
  cases hp : hasTag (pyStrip l) with
  | false => rfl
  | true => exact absurd (hasTag_pyStrip hp) (by simp [h])

/-! ### Assembled facts about `remove_html_tags` -/

/-- No residual `&nbsp;`, `&lt;` or `&gt;` entity survives normalisation,
for every possible raw CONTENT value. -/
theorem remove_html_tags_no_entities (t : Option (List Char)) :
    hasSub entNbsp (remove_html_tags t) = false ∧
    hasSub entLt (remove_html_tags t) = false ∧
    hasSub entGt (remove_html_tags t) = false := by
  cases t with
  | none => exact ⟨by decide, by decide, by decide⟩
  | some s =>
    simp only [remove_html_tags, replaceAll]
    refine ⟨?_, ?_, ?_⟩
    · apply hasSub_pyStrip_false
      apply hasSub_repAux_preserve (by decide) (by decide) (by decide)
      apply hasSub_repAux_preserve (by decide) (by decide) (by decide)
      exact hasSub_repAux_self (by decide) (by decide) (by decide) (stripTags s) 0
    · apply hasSub_pyStrip_false
      apply hasSub_repAux_preserve (by decide) (by decide) (by decide)
      exact hasSub_repAux_self (by decide) (by decide) (by decide) _ 0
    · apply hasSub_pyStrip_false
      exact hasSub_repAux_self (by decide) (by decide) (by decide) _ 0

/-- If the tag-stripped text contains no `&lt;`/`&gt;` entity to
unescape, the final content contains no tag-pattern match either. -/
theorem remove_html_tags_tag_free (s : List Char)
    (hlt : hasSub entLt (stripTags s) = false)
    (hgt : hasSub entGt (stripTags s) = false) :
    hasTag (remove_html_tags (some s)) = false := by
  simp only [remove_html_tags, replaceAll]
  have hu1tag : hasTag (repAux entNbsp [' '] 0 (stripTags s)) = false := by
    rw [hasTag_repAux (by decide) (by decide) (by decide) (stripTags s) 0]
    rw [List.drop_zero]
    exact hasTag_stripTags s
  have hu1lt : hasSub entLt (repAux entNbsp [' '] 0 (stripTags s)) = false :=
    hasSub_repAux_preserve (by decide) (by decide) (by decide) _ 0 hlt
  have hu1gt : hasSub entGt (repAux entNbsp [' '] 0 (stripTags s)) = false :=
    hasSub_repAux_preserve (by decide) (by decide) (by decide) _ 0 hgt
  rw [repAux_id _ hu1lt, repAux_id _ hu1gt]
  exact hasTag_pyStrip_false hu1tag

theorem lookup_mem_of_eq_some {l : List (String × String)} {c v : String}
    (h : l.lookup c = some v) : (c, v) ∈ l := by
  induction l with
  | nil => simp [List.lookup] at h
  | cons p ps ih =>
    rw [List.lookup] at h
    split at h
    · rename_i hb
      cases p with
      | mk k w =>
        simp only [Option.some.injEq] at h
        rw [List.mem_cons]
        left
        have hk : c = k := beq_iff_eq.mp hb
        rw [hk, h]
    · right; exact ih h

theorem mem_insertItemDesc {x z : Item} {l : List Item}
    (h : z ∈ insertItemDesc x l) : z = x ∨ z ∈ l := by
  induction l with
  | nil => simpa [insertItemDesc] using h
  | cons y ys ih =>
    simp only [insertItemDesc] at h
    split at h
    · rcases List.mem_cons.mp h with h | h
      · exact Or.inl h
      · exact Or.inr h
    · rcases List.mem_cons.mp h with h | h
      · exact Or.inr (by simp [h])
      · rcases ih h with h | h
        · exact Or.inl h
        · exact Or.inr (by simp [h])

theorem itemsSortedDesc_insert {x : Item} {l : List Item}
    (hl : itemsSortedDesc l) : itemsSortedDesc (insertItemDesc x l) := by
  induction l with
  | nil => simp [insertItemDesc, itemsSortedDesc]
  | cons y ys ih =>
    simp only [itemsSortedDesc, insertItemDesc]
    simp only [itemsSortedDesc] at hl
    rw [List.pairwise_cons] at hl
    split
    · rename_i hle
      rw [List.pairwise_cons]
      constructor
      · intro z hz
        rcases List.mem_cons.mp hz with h | h
        · rw [h]; exact hle
        · exact strLeB_trans (hl.1 z h) hle
      · exact List.pairwise_cons.mpr hl
    · rename_i hle
      rw [List.pairwise_cons]
      constructor
      · intro z hz
        rcases mem_insertItemDesc hz with h | h
        · rw [h]
          rcases strLeB_total x.REGISTRATION_DATE y.REGISTRATION_DATE with h' | h'
          · exact h'
          · exact absurd h' hle
        · exact hl.1 z h
      · exact ih hl.2

theorem sortItemsDesc_sorted (l : List Item) : itemsSortedDesc (sortItemsDesc l) := by
  induction l with
  | nil => simp [sortItemsDesc, itemsSortedDesc]
  | cons x xs ih => exact itemsSortedDesc_insert ih

theorem length_insertItemDesc (x : Item) (l : List Item) :
    (insertItemDesc x l).length = l.length + 1 := by
  induction l with
  | nil => rfl
  | cons y ys ih =>
    simp only [insertItemDesc]
    split
    · rfl
    · simp [ih]

theorem length_sortItemsDesc (l : List Item) :
    (sortItemsDesc l).length = l.length := by
  induction l with
  | nil => rfl
  | cons x xs ih => simp [sortItemsDesc, length_insertItemDesc, ih]

theorem normalizeTable_sorted (items : List Item) :
    recsSortedDesc (normalizeTable items) := by
  have hs := sortItemsDesc_sorted items
  simp only [normalizeTable, recsSortedDesc, List.pairwise_map]
  simp only [itemsSortedDesc] at hs
  exact hs.imp (fun h => h)

theorem length_normalizeTable (items : List Item) :
    (normalizeTable items).length = items.length := by
  simp [normalizeTable, length_sortItemsDesc]

theorem mem_normalizeTable {r : Record} {items : List Item}
    (h : r ∈ normalizeTable items) : ∃ it, it ∈ items ∧ r = normalizeItem it := by
  simp only [normalizeTable, List.mem_map] at h
  obtain ⟨it, hit, hr⟩ := h
  have : ∀ z l, z ∈ sortItemsDesc l → z ∈ l := by
    intro z l
    induction l with
    | nil => simp [sortItemsDesc]
    | cons y ys ih =>
      intro hz
      rcases mem_insertItemDesc hz with h | h
      · simp [h]
      · simp [ih h]
  exact ⟨it, this it items hit, hr.symm⟩

/-! ### Loop lemmas -/

theorem callsOf_fetchLoop_le (api : Nat → Nat → ApiResult) :
    ∀ (fuel i : Nat) (acc : List Item),
      callsOf (fetchLoop api fuel i acc) ≤ i + fuel := by
  intro fuel
  induction fuel with
  | zero => intro i acc; simp [fetchLoop, callsOf]
  | succ fuel ih =>
    intro i acc
    simp only [fetchLoop]
    split
    · simp only [callsOf]; omega
    · simp only [callsOf]; omega
    · simp only [callsOf]; omega
    · rename_i x xs _
      have := ih (i + 1) (acc ++ x :: xs)
      omega

/-- If pages `i, ..., i+n-1` return non-empty item lists and page `i+n`
raises, the loop stops there with exactly the items of the good pages
appended to the accumulator. -/
theorem fetchLoop_err (api : Nat → Nat → ApiResult) (L : Nat → List Item) (e : String) :
    ∀ (n fuel i : Nat) (acc : List Item), n < fuel →
      (∀ j, j < n → api (start_index (i + j)) (end_index (i + j)) = .items (L (i + j)) ∧
        L (i + j) ≠ []) →
      api (start_index (i + n)) (end_index (i + n)) = .err e →
      fetchLoop api fuel i acc = .failed (i + n + 1) e (acc ++ concatPages L i n) := by
  intro n
  induction n with
  | zero =>
    intro fuel i acc hfuel hgood herr
    cases fuel with
    | zero => omega
    | succ fuel =>
      simp only [fetchLoop]
      rw [show i + 0 = i from rfl] at herr
      rw [herr]
      simp [concatPages]
  | succ n ih =>
    intro fuel i acc hfuel hgood herr
    cases fuel with
    | zero => omega
    | succ fuel =>
      simp only [fetchLoop]
      have h0 := hgood 0 (by omega)
      rw [show i + 0 = i from rfl] at h0
      rw [h0.1]
      cases hL : L i with
      | nil => exact absurd hL h0.2
      | cons x xs =>
        have hrec := ih fuel (i + 1) (acc ++ x :: xs) (by omega)
          (by
            intro j hj
            have := hgood (j + 1) (by omega)
            constructor
            · rw [show i + 1 + j = i + (j + 1) by omega]
              exact this.1
            · rw [show i + 1 + j = i + (j + 1) by omega]
              exact this.2)
          (by
            rw [show i + 1 + n = i + (n + 1) by omega]
            exact herr)
        show fetchLoop api fuel (i + 1) (acc ++ x :: xs) = _
        rw [hrec]
        simp only [concatPages, hL]
        rw [show i + 1 + n + 1 = i + (n + 1) + 1 by omega]
        rw [List.append_assoc]

/-- Same hypotheses, but the loop runs out of pages to request: if all
5 pages are good the loop ends with fuel 0. -/
theorem fetchLoop_done_empty (api : Nat → Nat → ApiResult) (L : Nat → List Item) :
    ∀ (n fuel i : Nat) (acc : List Item), n < fuel →
      (∀ j, j < n → api (start_index (i + j)) (end_index (i + j)) = .items (L (i + j)) ∧
        L (i + j) ≠ []) →
      api (start_index (i + n)) (end_index (i + n)) = .items [] →
      fetchLoop api fuel i acc = .done (i + n + 1) (acc ++ concatPages L i n) := by
  intro n
  induction n with
  | zero =>
    intro fuel i acc hfuel hgood hempty
    cases fuel with
    | zero => omega
    | succ fuel =>
      simp only [fetchLoop]
      rw [show i + 0 = i from rfl] at hempty
      rw [hempty]
      simp [concatPages]
  | succ n ih =>
    intro fuel i acc hfuel hgood hempty
    cases fuel with
    | zero => omega
    | succ fuel =>
      simp only [fetchLoop]
      have h0 := hgood 0 (by omega)
      rw [show i + 0 = i from rfl] at h0
      rw [h0.1]
      cases hL : L i with
      | nil => exact absurd hL h0.2
      | cons x xs =>
        have hrec := ih fuel (i + 1) (acc ++ x :: xs) (by omega)
          (by
            intro j hj
            have := hgood (j + 1) (by omega)
            constructor
            · rw [show i + 1 + j = i + (j + 1) by omega]
              exact this.1
            · rw [show i + 1 + j = i + (j + 1) by omega]
              exact this.2)
          (by
            rw [show i + 1 + n = i + (n + 1) by omega]
            exact hempty)
        show fetchLoop api fuel (i + 1) (acc ++ x :: xs) = _
        rw [hrec]
        simp only [concatPages, hL]
        rw [show i + 1 + n + 1 = i + (n + 1) + 1 by omega]
        rw [List.append_assoc]

theorem mem_concatPages {x : Item} {L : Nat → List Item} :
    ∀ (n i : Nat), x ∈ concatPages L i n → ∃ j, j < n ∧ x ∈ L (i + j) := by
  intro n
  induction n with
  | zero => intro i h; simp [concatPages] at h
  | succ n ih =>
    intro i h
    simp only [concatPages] at h
    rcases List.mem_append.mp h with h | h
    · exact ⟨0, by omega, by simpa using h⟩
    · obtain ⟨j, hj, hx⟩ := ih (i + 1) h
      exact ⟨j + 1, by omega, by rw [show i + (j + 1) = i + 1 + j by omega]; exact hx⟩

/-! ### Inversion of a successful fetch -/

/-- A successful `fetch_food_data` returns either the empty frame or the
normalised table of some collected item list. -/
theorem fetch_ok_inv {api : Nat → Nat → ApiResult} {recs : List Record}
    (h : fetch_food_data api = .ok recs) :
    recs = [] ∨ ∃ acc, recs = normalizeTable acc := by
  unfold fetch_food_data at h
  split at h
  · split at h
    · cases h; left; rfl
    · cases h; right; exact ⟨_, rfl⟩
  · cases h

/-- Every record of a successful fetch is the normalisation of some item. -/
theorem fetch_ok_mem {api : Nat → Nat → ApiResult} {recs : List Record} {r : Record}
    (h : fetch_food_data api = .ok recs) (hr : r ∈ recs) :
    ∃ it, r = normalizeItem it := by
  rcases fetch_ok_inv h with hnil | ⟨acc, hacc⟩
  · rw [hnil] at hr; cases hr
  · rw [hacc] at hr
    obtain ⟨it, _, hit⟩ := mem_normalizeTable hr
    exact ⟨it, hit⟩

/-! ### The claims -/

/-- C7: the tab-1 membership filter is idempotent — applying it twice
with the same `정보 구분`/`국가 선택` selections returns the same rows as
applying it once (indeed the very same list). -/
theorem C7_filter_idempotent (filter_type filter_country : List String)
    (t : List Record) :
    filterTable filter_type filter_country (filterTable filter_type filter_country t) =
      filterTable filter_type filter_country t := by
  simp only [filterTable]
  induction t with
  | nil => rfl
  | cons r rs ih =>
    rw [List.filter_cons]
    split
    · rename_i h
      rw [List.filter_cons, if_pos h, ih]
    · exact ih

/-- C8: a missing/NaN raw CONTENT value normalises to the empty string
(`pd.isna` guard at app.py line 37), both for `remove_html_tags` itself
and for the content field of the normalised record. -/
theorem C8_null_to_empty :
    remove_html_tags none = [] ∧
    ∀ it : Item, it.CONTENT = none → (normalizeItem it).content = [] := by
  refine ⟨rfl, ?_⟩
  intro it h
  simp [normalizeItem, h, remove_html_tags]

/-- Witness for C8 at a concrete item with absent CONTENT. -/
theorem C8_witness : (normalizeItem itemC8).content = [] :=
  C8_null_to_empty.2 itemC8 rfl

/-- C10: entities are unescaped only after tag removal, so raw content
consisting of escaped markup produces literal angle brackets that form a
tag pattern: `remove_html_tags("&lt;b&gt;") = "<b>"`. -/
theorem C10_escaped_markup_becomes_tag :
    remove_html_tags (some "&lt;b&gt;".data) = "<b>".data ∧
    hasTag (remove_html_tags (some "&lt;b&gt;".data)) = true := by
  exact ⟨by decide, by decide⟩

/-- C2 is false as stated: a successful fetch of a record whose raw
CONTENT is `"&lt;b&gt;"` yields content `"<b>"`, which matches the HTML
tag pattern. -/
theorem C2_counterexample :
    fetch_food_data apiEsc = .ok [normalizeItem itemEsc] ∧
    (normalizeItem itemEsc).content = "<b>".data ∧
    hasTag (normalizeItem itemEsc).content = true := by
  refine ⟨by decide, by decide, by decide⟩

/-- C2 (amended): the entity half of the claim holds unconditionally —
no `&nbsp;`/`&lt;`/`&gt;` survives into any normalised content, over all
raw CONTENT values and over every record of every successful fetch.  The
tag-pattern half holds only when the tag-stripped raw text contains no
`&lt;`/`&gt;` entity (unescaping such entities can mint fresh tags, as
the counterexample shows). -/
theorem C2_content_clean :
    (∀ t : Option (List Char),
      hasSub entNbsp (remove_html_tags t) = false ∧
      hasSub entLt (remove_html_tags t) = false ∧
      hasSub entGt (remove_html_tags t) = false) ∧
    (∀ (api : Nat → Nat → ApiResult) (recs : List Record) (r : Record),
      fetch_food_data api = .ok recs → r ∈ recs →
      hasSub entNbsp r.content = false ∧
      hasSub entLt r.content = false ∧
      hasSub entGt r.content = false) ∧
    (∀ s : List Char, hasSub entLt (stripTags s) = false →
      hasSub entGt (stripTags s) = false →
      hasTag (remove_html_tags (some s)) = false) := by
  refine ⟨remove_html_tags_no_entities, ?_, remove_html_tags_tag_free⟩
  intro api recs r h hr
  obtain ⟨it, hit⟩ := fetch_ok_mem h hr
  rw [hit]
  exact remove_html_tags_no_entities it.CONTENT

/-- Witness for C2 (amended) on a concrete successful fetch and raw text. -/
theorem C2_witness :
    (hasSub entNbsp (normalizeItem itemOld).content = false ∧
      hasSub entLt (normalizeItem itemOld).content = false ∧
      hasSub entGt (normalizeItem itemOld).content = false) ∧
    hasTag (remove_html_tags (some "a<b>c".data)) = false :=
  ⟨C2_content_clean.2.1 apiC1ok (normalizeTable [itemOld, itemNew])
      (normalizeItem itemOld) (by decide) (by decide),
    C2_content_clean.2.2 "a<b>c".data (by decide) (by decide)⟩

/-- C5: `Country_EN` is the fixed mapping's value when `국가` is a key
and the original value otherwise (`.map(COUNTRY_MAPPING).fillna(국가)`),
hence never empty for non-empty `국가`; `"대한민국" ↦ "South Korea"`,
`"Atlantis" ↦ "Atlantis"`; and every record of a successful fetch carries
exactly this derivation. -/
theorem C5_country_en :
    (∀ c v, COUNTRY_MAPPING.lookup c = some v → countryEn c = v) ∧
    (∀ c, COUNTRY_MAPPING.lookup c = none → countryEn c = c) ∧
    (∀ c, c ≠ "" → countryEn c ≠ "") ∧
    countryEn "대한민국" = "South Korea" ∧
    countryEn "Atlantis" = "Atlantis" ∧
    (∀ (api : Nat → Nat → ApiResult) (recs : List Record) (r : Record),
      fetch_food_data api = .ok recs → r ∈ recs →
      r.country_en = countryEn r.country_local) := by
  refine ⟨?_, ?_, ?_, by decide, by decide, ?_⟩
  · intro c v h
    simp [countryEn, h]
  · intro c h
    simp [countryEn, h]
  · intro c hc
    cases h : COUNTRY_MAPPING.lookup c with
    | none => simpa [countryEn, h] using hc
    | some v =>
      have hval : ∀ p ∈ COUNTRY_MAPPING, p.2 ≠ "" := by decide
      have hmem := lookup_mem_of_eq_some h
      simpa [countryEn, h] using hval (c, v) hmem
  · intro api recs r h hr
    obtain ⟨it, hit⟩ := fetch_ok_mem h hr
    rw [hit]
    rfl

/-- Witness for C5 at the two scenario inputs. -/
theorem C5_witness :
    countryEn "대한민국" = "South Korea" ∧ countryEn "Atlantis" ≠ "" :=
  ⟨C5_country_en.2.2.2.1, C5_country_en.2.2.1 "Atlantis" (by decide)⟩

/-- C6: the drill-down shows the first `min 5 n` of the `n` records of
the filtered table restricted to the selected country — a prefix of that
restriction, still descending when the table is; with 7 matches, exactly
5 are shown. -/
theorem C6_drilldown (t : List Record) (c : String) :
    (drillDown t c).length =
      min 5 (t.filter (fun r => r.country_local == c)).length ∧
    drillDown t c ++ (t.filter (fun r => r.country_local == c)).drop 5 =
      t.filter (fun r => r.country_local == c) ∧
    (recsSortedDesc t → recsSortedDesc (drillDown t c)) ∧
    ((t.filter (fun r => r.country_local == c)).length = 7 →
      (drillDown t c).length = 5) := by
  refine ⟨List.length_take 5 _, List.take_append_drop 5 _, ?_, ?_⟩
  · intro hs
    exact ((hs.filter _).sublist (List.take_sublist 5 _))
  · intro h7
    simp only [drillDown]
    rw [List.length_take, h7]
    rfl

/-- Witness for C6: seven 일본 rows, five shown, still descending. -/
theorem C6_witness :
    (drillDown tC6 "일본").length = 5 ∧ recsSortedDesc (drillDown tC6 "일본") :=
  ⟨(C6_drilldown tC6 "일본").2.2.2 (by decide),
    (C6_drilldown tC6 "일본").2.2.1 (by decide)⟩

/-- C1 is false as stated: when the second call raises after page 0
returned items in ascending date order, `fetch` returns those raw rows
unsorted (the `except` branch at lines 110-112 skips the sort of
line 101). -/
theorem C1_counterexample :
    fetch_food_data apiC1 = .rawOnError "ConnectionError" [itemOld, itemNew] ∧
    ¬ itemsSortedDesc [itemOld, itemNew] := by
  exact ⟨by decide, by decide⟩

/-- C1 (amended): the table of every *successful* fetch is sorted
descending by `등록일`; a fetch ended early by a transport error returns
the partial rows raw, with no sort applied. -/
theorem C1_sorted_on_ok :
    ∀ (api : Nat → Nat → ApiResult) (recs : List Record),
      fetch_food_data api = .ok recs → recsSortedDesc recs := by
  intro api recs h
  rcases fetch_ok_inv h with hnil | ⟨acc, hacc⟩
  · rw [hnil]
    exact List.Pairwise.nil
  · rw [hacc]
    exact normalizeTable_sorted acc

/-- Witness for C1 (amended) on a concrete successful fetch. -/
theorem C1_witness : recsSortedDesc (normalizeTable [itemOld, itemNew]) :=
  C1_sorted_on_ok apiC1ok (normalizeTable [itemOld, itemNew]) (by decide)

/-- C3: if the call for page `k` raises after pages `0..k-1` were
collected, `fetch` aborts the remaining pagination and returns — as a
value, not an exception — exactly the items of the first `k` pages plus
the surfaced error message (possibly zero rows when `k = 0`). -/
theorem C3_soft_failure (api : Nat → Nat → ApiResult) (L : Nat → List Item)
    (k : Nat) (e : String) (hk : k < 5)
    (hgood : ∀ j, j < k → api (start_index j) (end_index j) = .items (L j) ∧ L j ≠ [])
    (herr : api (start_index k) (end_index k) = .err e) :
    fetch_food_data api = .rawOnError e (concatPages L 0 k) := by
  unfold fetch_food_data
  have hle := fetchLoop_err api L e k 5 0 [] hk
    (by intro j hj; simpa using hgood j hj)
    (by simpa using herr)
  rw [hle]
  simp

/-- Witness for C3: one good page, then a transport error. -/
theorem C3_witness :
    fetch_food_data apiC3e =
      .rawOnError "HTTPError 500" (concatPages (fun _ => [itemOld]) 0 1) := by
  refine C3_soft_failure apiC3e (fun _ => [itemOld]) 1 "HTTPError 500" (by omega) ?_ rfl
  intro j hj
  have hj0 : j = 0 := by omega
  subst hj0
  exact ⟨rfl, by decide⟩

/-- C4: pagination requests the 1-based window `[100*i+1, 100*(i+1)]` on
call `i`, never issues more than 5 calls, and with 3 full pages followed
by an empty page makes exactly 4 calls and returns the 300 collected
records normalised and sorted. -/
theorem C4_pagination :
    (∀ i, start_index i = 100 * i + 1 ∧ end_index i = 100 * (i + 1)) ∧
    (∀ api : Nat → Nat → ApiResult, callsOf (fetchLoop api 5 0 []) ≤ 5) ∧
    (∀ (api : Nat → Nat → ApiResult) (L0 L1 L2 : List Item),
      api (start_index 0) (end_index 0) = .items L0 → L0.length = 100 →
      api (start_index 1) (end_index 1) = .items L1 → L1.length = 100 →
      api (start_index 2) (end_index 2) = .items L2 → L2.length = 100 →
      api (start_index 3) (end_index 3) = .items [] →
      callsOf (fetchLoop api 5 0 []) = 4 ∧
      fetch_food_data api = .ok (normalizeTable (L0 ++ L1 ++ L2)) ∧
      (normalizeTable (L0 ++ L1 ++ L2)).length = 300 ∧
      recsSortedDesc (normalizeTable (L0 ++ L1 ++ L2))) := by
  refine ⟨?_, ?_, ?_⟩
  · intro i
    exact ⟨by simp [start_index]; ring, by simp [end_index]; ring⟩
  · intro api
    simpa using callsOf_fetchLoop_le api 5 0 []
  · intro api L0 L1 L2 h0 h0l h1 h1l h2 h2l h3
    have hL0ne : L0 ≠ [] := by intro hnil; rw [hnil] at h0l; simp at h0l
    have hL1ne : L1 ≠ [] := by intro hnil; rw [hnil] at h1l; simp at h1l
    have hL2ne : L2 ≠ [] := by intro hnil; rw [hnil] at h2l; simp at h2l
    have hgood : ∀ j, j < 3 →
        api (start_index (0 + j)) (end_index (0 + j)) =
          .items ((fun j => if j = 0 then L0 else if j = 1 then L1 else L2) (0 + j)) ∧
        (fun j => if j = 0 then L0 else if j = 1 then L1 else L2) (0 + j) ≠ [] := by
      intro j hj
      interval_cases j
      · exact ⟨by simpa using h0, by simpa using hL0ne⟩
      · exact ⟨by simpa using h1, by simpa using hL1ne⟩
      · exact ⟨by simpa using h2, by simpa using hL2ne⟩
    have hdone := fetchLoop_done_empty api
      (fun j => if j = 0 then L0 else if j = 1 then L1 else L2) 3 5 0 []
      (by omega) hgood (by simpa using h3)
    have hacc : concatPages (fun j => if j = 0 then L0 else if j = 1 then L1 else L2) 0 3
        = L0 ++ L1 ++ L2 := by
      show L0 ++ (L1 ++ (L2 ++ [])) = L0 ++ L1 ++ L2
      simp [List.append_assoc]
    rw [hacc] at hdone
    have hdone' : fetchLoop api 5 0 [] = .done 4 (L0 ++ L1 ++ L2) := by
      simpa using hdone
    have hne : L0 ++ L1 ++ L2 ≠ [] := by
      intro h
      have hlen := congrArg List.length h
      simp [h0l, h1l, h2l] at hlen
    refine ⟨?_, ?_, ?_, normalizeTable_sorted _⟩
    · rw [hdone']
      rfl
    · unfold fetch_food_data
      rw [hdone']
      show (if L0 ++ L1 ++ L2 = ([] : List Item) then FetchResult.ok []
        else FetchResult.ok (normalizeTable (L0 ++ L1 ++ L2))) =
        FetchResult.ok (normalizeTable (L0 ++ L1 ++ L2))
      rw [if_neg hne]
    · rw [length_normalizeTable]
      simp [h0l, h1l, h2l]

/-- Witness for C4: a concrete endpoint with 3 full replicated pages and
an empty 4th. -/
theorem C4_witness :
    callsOf (fetchLoop apiFull3 5 0 []) = 4 ∧
    fetch_food_data apiFull3 = .ok (normalizeTable
      (List.replicate 100 itemRep ++ List.replicate 100 itemRep ++
        List.replicate 100 itemRep)) ∧
    (normalizeTable (List.replicate 100 itemRep ++ List.replicate 100 itemRep ++
      List.replicate 100 itemRep)).length = 300 ∧
    recsSortedDesc (normalizeTable (List.replicate 100 itemRep ++
      List.replicate 100 itemRep ++ List.replicate 100 itemRep)) :=
  C4_pagination.2.2 apiFull3 _ _ _ rfl (by simp) rfl (by simp) rfl (by simp) rfl

/-- C9 (implicit): the partial table of a failed fetch is made of the
*raw* `Item`s — upstream field names, contents verbatim from the pages,
no renaming, no sort, no HTML stripping, no `Country_EN` — exactly the
accumulated `all_data` of the `except` branch. -/
theorem C9_error_path_raw (api : Nat → Nat → ApiResult) (L : Nat → List Item)
    (k : Nat) (e : String) (h1 : 1 ≤ k) (hk : k < 5)
    (hgood : ∀ j, j < k → api (start_index j) (end_index j) = .items (L j) ∧ L j ≠ [])
    (herr : api (start_index k) (end_index k) = .err e) :
    ∃ rawItems : List Item, fetch_food_data api = .rawOnError e rawItems ∧
      rawItems = concatPages L 0 k ∧ rawItems ≠ [] ∧
      ∀ x ∈ rawItems, ∃ j, j < k ∧ x ∈ L j := by
  refine ⟨concatPages L 0 k, ?_, rfl, ?_, ?_⟩
  · unfold fetch_food_data
    have hle := fetchLoop_err api L e k 5 0 [] hk
      (by intro j hj; simpa using hgood j hj)
      (by simpa using herr)
    rw [hle]
    simp
  · cases k with
    | zero => omega
    | succ m =>
      show L 0 ++ concatPages L 1 m ≠ []
      have h0 := (hgood 0 (by omega)).2
      cases hL : L 0 with
      | nil => exact absurd hL h0
      | cons x xs =>
        simp
  · intro x hx
    obtain ⟨j, hj, hmem⟩ := mem_concatPages k 0 hx
    exact ⟨j, hj, by simpa using hmem⟩

/-- Witness for C9: one raw page (a record with literal markup in
CONTENT and raw field names) survives a page-1 timeout untouched. -/
theorem C9_witness :
    ∃ rawItems : List Item, fetch_food_data apiC9e = .rawOnError "Timeout" rawItems ∧
      rawItems = concatPages (fun _ => [itemNew, itemOld]) 0 1 ∧ rawItems ≠ [] ∧
      ∀ x ∈ rawItems, ∃ j, j < 1 ∧ x ∈ (fun _ : Nat => [itemNew, itemOld]) j := by
  refine C9_error_path_raw apiC9e (fun _ => [itemNew, itemOld]) 1 "Timeout"
    (by omega) (by omega) ?_ rfl
  intro j hj
  have hj0 : j = 0 := by omega
  subst hj0
  exact ⟨rfl, by decide⟩
